import Mathlib

/-!
Shallow embedding of the ingestion/normalization pipeline of the wind-farm
analysis notebook (`wind_farm_analysis.ipynb`): header-row detection,
station-name extraction, per-file CSV loading, corpus concatenation, and
the normalization steps (missing-value substitution, fixed-format
timestamp parsing, duplicate elimination).

Files are modelled as lists of lines, each line a list of characters
(without its trailing newline; the scanned tokens and the label contain no
newline and Python's `strip` removes it, so dropping it is
behaviour-preserving).  Pandas tables are modelled as a structure holding
the column names, the rows (lists of cells aligned positionally with the
columns) and the row-index labels.  Numeric dtype inference performed by
`pd.read_csv` is not modelled: every non-missing cell is kept as text,
which is faithful for every property stated below (none inspects a
numeric value).
-/

/-- A line of a text file, without its trailing newline. -/
abbrev Line := List Char

/-- Character list of a string literal. -/
def strL (s : String) : List Char := s.toList

/-- Python substring test `tok in s` on character lists: `tok` occurs
contiguously somewhere in the list. -/
def containsSub (tok : List Char) : List Char → Bool
  | [] => tok.isEmpty
  | c :: rest => tok.isPrefixOf (c :: rest) || containsSub tok rest

/-- Python `str.lower()` (the tokens searched for are pure ASCII, for which
`Char.toLower` agrees with Python). -/
def lowerL (l : List Char) : List Char := l.map Char.toLower

/-- The timestamp-column marker token searched for by the header locator. -/
def dateTok : List Char := strL "date"

/-- The wind-speed-column marker token searched for by the header locator. -/
def wdspTok : List Char := strL "wdsp"

/-- Condition of the header locator: the line contains, case-insensitively,
both the token `date` and the token `wdsp`
(`"date" in line.lower() and "wdsp" in line.lower()`). -/
def hasBothTokens (line : Line) : Bool :=
  containsSub dateTok (lowerL line) && containsSub wdspTok (lowerL line)

/-- Loop of `detect_header_row`: scan lines keeping a running row counter,
returning the counter at the first line holding both tokens. -/
def detect_header_row_from (row_number : Nat) : List Line → Option Nat
  | [] => none
  | line :: rest =>
    if hasBothTokens line then some row_number
    else detect_header_row_from (row_number + 1) rest

/-- Embedding of `detect_header_row`: 0-based index of the first line whose
case-insensitive content contains both `date` and `wdsp`; `none` when no
line does (the Python function returns `None`). -/
def detect_header_row (lines : List Line) : Option Nat :=
  detect_header_row_from 0 lines

/-- Whitespace characters removed by Python `str.strip()`. -/
def isPyWhite (c : Char) : Bool :=
  c = ' ' || c = '\t' || c = '\n' || c = '\r' || c = '\x0b' || c = '\x0c'

/-- Python `str.strip()`: drop whitespace from both ends. -/
def pyStrip (l : List Char) : List Char :=
  ((l.dropWhile isPyWhite).reverse.dropWhile isPyWhite).reverse

/-- Python `str.upper()` (station names in the data are ASCII, for which
`Char.toUpper` agrees with Python). -/
def pyUpper (l : List Char) : List Char := l.map Char.toUpper

/-- Fuel-indexed worker for `pySplit`.  The fuel only serves to make the
recursion structural; `pySplit` supplies the length of the list, which is
enough for a nonempty separator because each separator hit consumes at
least one character. -/
def pySplitGo (sep : List Char) : Nat → List Char → List (List Char)
  | _, [] => [[]]
  | 0, s => [s]
  | fuel + 1, c :: rest =>
    if !sep.isEmpty && sep.isPrefixOf (c :: rest) then
      [] :: pySplitGo sep fuel ((c :: rest).drop sep.length)
    else
      match pySplitGo sep fuel rest with
      | [] => [[c]]
      | chunk :: chunks => (c :: chunk) :: chunks

/-- Python `s.split(sep)` for a nonempty separator: cut `s` at each leftmost
non-overlapping occurrence of `sep`, keeping the (possibly empty) chunks
between the cuts. -/
def pySplit (sep s : List Char) : List (List Char) :=
  pySplitGo sep s.length s

/-- Characterization of one chunk of a Python split: the text up to the
next occurrence of the separator (or the whole list when the separator
does not occur).  On a line that starts with the separator, chunk 1 of
`pySplit` is `takeUntilSep` of the remainder after that leading
separator. -/
def takeUntilSep (sep : List Char) : List Char → List Char
  | [] => []
  | c :: rest =>
    if sep.isPrefixOf (c :: rest) then []
    else c :: takeUntilSep sep rest

/-- The literal metadata label `Station Name:` searched for by the
station-name extractor. -/
def stationLabel : List Char := strL "Station Name:"

/-- Embedding of `extract_station_name`: scan lines for the first one that
starts with `Station Name:`; on it, evaluate
`line.split("Station Name:")[1].strip().upper()`; return `none` if no line
matches (the Python function returns `None`).  The guard guarantees the
split has at least two chunks, so index 1 is always present. -/
def extract_station_name : List Line → Option (List Char)
  | [] => none
  | line :: rest =>
    if stationLabel.isPrefixOf line then
      some (pyUpper (pyStrip ((pySplit stationLabel line).getD 1 [])))
    else extract_station_name rest

/-- A parsed timestamp, as produced by `pd.to_datetime` with the fixed
format `%d-%b-%Y %H:%M` (seconds and finer are always zero under this
format and are omitted). -/
structure PDTimestamp where
  year : Nat
  month : Nat
  day : Nat
  hour : Nat
  minute : Nat
deriving DecidableEq

/-- A cell of a pandas table: missing (`NaN`/`None`/`NaT`), a text value,
or a parsed timestamp. -/
inductive Cell where
  | na
  | str (s : List Char)
  | dt (t : PDTimestamp)
deriving DecidableEq

/-- Lower-case English month abbreviations, in month order, used to match
`%b` case-insensitively when parsing. -/
def monthAbbrevs : List (List Char) :=
  [strL "jan", strL "feb", strL "mar", strL "apr", strL "may", strL "jun",
   strL "jul", strL "aug", strL "sep", strL "oct", strL "nov", strL "dec"]

/-- Month number (1-12) of a lower-cased three-letter abbreviation. -/
def monthOfAbbrev (s : List Char) : Option Nat :=
  (monthAbbrevs.findIdx? (· == s)).map (· + 1)

/-- Numeric value of a list of decimal digit characters. -/
def digitsVal (ds : List Char) : Nat :=
  ds.foldl (fun n c => 10 * n + (c.toNat - 48)) 0

/-- Gregorian leap-year rule, used to validate the day of month. -/
def isLeapYear (y : Nat) : Bool :=
  y % 4 == 0 && (y % 100 != 0 || y % 400 == 0)

/-- Number of days of month `m` in year `y`. -/
def daysInMonth (y m : Nat) : Nat :=
  if m == 2 then (if isLeapYear y then 29 else 28)
  else if m == 4 || m == 6 || m == 9 || m == 11 then 30
  else 31

/-- Strptime-style parsing of the fixed format `%d-%b-%Y %H:%M` used by
`pd.to_datetime(..., format='%d-%b-%Y %H:%M')`: one or two digits of day,
a dash, a case-insensitive three-letter month abbreviation, a dash, four
digits of year, a space, one or two digits of hour, a colon, one or two
digits of minute, end of string; the field values must form a valid
instant.  `none` models the `ValueError` pandas raises on a mismatch. -/
def parseDateFmt (s : List Char) : Option PDTimestamp :=
  let dspan := s.span Char.isDigit
  if dspan.1.length == 0 || dspan.1.length > 2 then none else
  match dspan.2 with
  | '-' :: r2 =>
    match monthOfAbbrev ((r2.take 3).map Char.toLower) with
    | none => none
    | some m =>
      match r2.drop 3 with
      | '-' :: r4 =>
        let yspan := r4.span Char.isDigit
        if yspan.1.length != 4 then none else
        match yspan.2 with
        | ' ' :: r6 =>
          let hspan := r6.span Char.isDigit
          if hspan.1.length == 0 || hspan.1.length > 2 then none else
          match hspan.2 with
          | ':' :: r8 =>
            let mspan := r8.span Char.isDigit
            if mspan.1.length == 0 || mspan.1.length > 2 || !mspan.2.isEmpty
            then none else
            let d := digitsVal dspan.1
            let y := digitsVal yspan.1
            let hh := digitsVal hspan.1
            let mm := digitsVal mspan.1
            if 1 ≤ d ∧ d ≤ daysInMonth y m ∧ hh ≤ 23 ∧ mm ≤ 59 then
              some ⟨y, m, d, hh, mm⟩
            else none
          | _ => none
        | _ => none
      | _ => none
  | _ => none

/-- Decimal digit character of `n < 10`. -/
def digitChar (n : Nat) : Char := Char.ofNat (48 + n)

/-- Zero-padded two-digit rendering, as `strftime` `%d`, `%H`, `%M`. -/
def pad2 (n : Nat) : List Char := [digitChar (n / 10 % 10), digitChar (n % 10)]

/-- Zero-padded four-digit rendering, as `strftime` `%Y` for years below
10000 (the only years a four-digit `%Y` parse can produce). -/
def pad4 (n : Nat) : List Char :=
  [digitChar (n / 1000 % 10), digitChar (n / 100 % 10),
   digitChar (n / 10 % 10), digitChar (n % 10)]

/-- Capitalized English month abbreviations emitted by `strftime` `%b` in
the C/English locale. -/
def monthAbbrevsCap : List (List Char) :=
  [strL "Jan", strL "Feb", strL "Mar", strL "Apr", strL "May", strL "Jun",
   strL "Jul", strL "Aug", strL "Sep", strL "Oct", strL "Nov", strL "Dec"]

/-- Strftime rendering of a timestamp under the same fixed pattern
`%d-%b-%Y %H:%M`. -/
def formatDateFmt (t : PDTimestamp) : List Char :=
  pad2 t.day ++ ['-'] ++ monthAbbrevsCap.getD (t.month - 1) [] ++ ['-'] ++
  pad4 t.year ++ [' '] ++ pad2 t.hour ++ [':'] ++ pad2 t.minute

/-- A pandas DataFrame: column names, rows of cells aligned positionally
with the columns, and the row-index labels (one per row). -/
structure Table where
  cols : List (List Char)
  rows : List (List Cell)
  index : List Nat
deriving DecidableEq

/-- Default strings `pd.read_csv` reads as missing values (the subset of
pandas' default `na_values` list relevant to this data; the empty field is
the one the weather exports actually contain). -/
def naValues : List (List Char) :=
  [strL "", strL "NaN", strL "nan", strL "NA", strL "N/A", strL "n/a",
   strL "null", strL "NULL", strL "None", strL "<NA>", strL "#N/A"]

/-- Reading of one CSV field: missing-value strings become `Cell.na`,
everything else is kept as text (numeric dtype inference not modelled). -/
def parseCell (s : List Char) : Cell :=
  if naValues.contains s then Cell.na else Cell.str s

/-- Comma splitting of one CSV record (the weather exports are unquoted). -/
def splitComma (l : List Char) : List (List Char) := pySplit (strL ",") l

/-- Embedding of `pd.read_csv` from the first given line onward: the first
line is the header naming the columns, the remaining lines are the data
rows; the fresh row index is `0, 1, 2, ...`. -/
def pd_read_csv : List Line → Table
  | [] => ⟨[], [], []⟩
  | header :: dataLines =>
    let rows := dataLines.map (fun l => (splitComma l).map parseCell)
    ⟨splitComma header, rows, List.range rows.length⟩

/-- Cell stored by `df['station'] = station_name`: the extracted name, or
missing when `extract_station_name` returned `None`. -/
def stationCell : Option (List Char) → Cell
  | none => Cell.na
  | some s => Cell.str s

/-- Embedding of `read_clean_csv`: extract the station name, locate the
header row, raise `ValueError` (modelled as `Except.error` carrying the
message naming the file) when there is none, otherwise read the table from
the header row on and append the `station` column to every row. -/
def read_clean_csv (path : String) (lines : List Line) : Except String Table :=
  let station_name := extract_station_name lines
  match detect_header_row lines with
  | none => Except.error ("No valid header found in " ++ path)
  | some k =>
    let df := pd_read_csv (lines.drop k)
    Except.ok ⟨df.cols ++ [strL "station"],
               df.rows.map (fun r => r ++ [stationCell station_name]),
               df.index⟩

/-- Position of a column name in a column list (first match). -/
def colIdx (c : List Char) : List (List Char) → Option Nat
  | [] => none
  | c0 :: rest => if c0 == c then some 0 else (colIdx c rest).map (· + 1)

/-- Column union computed by `pd.concat` (default `sort=False`): columns of
the first frame, then the columns of each later frame not seen before, in
order of appearance. -/
def unionCols (ts : List Table) : List (List Char) :=
  ts.foldl (fun acc t => acc ++ t.cols.filter (fun col => !(acc.contains col))) []

/-- Realignment of one row from its source columns to the union columns: a
column absent from the source gets the missing marker. -/
def realign (srcCols tgtCols : List (List Char)) (row : List Cell) : List Cell :=
  tgtCols.map (fun c =>
    match colIdx c srcCols with
    | some i => row.getD i Cell.na
    | none => Cell.na)

/-- Embedding of `pd.concat(ts, ignore_index=...)`: rows of all frames in
order, realigned to the union columns; with `ignore_index` the result
index is the dense sequence `0, 1, 2, ...`, otherwise the per-frame
indices are concatenated unchanged. -/
def pdConcat (ts : List Table) (ignore_index : Bool) : Table :=
  let cols := unionCols ts
  let rows := (ts.map (fun t => t.rows.map (realign t.cols cols))).flatten
  let index := if ignore_index then List.range rows.length
               else (ts.map (fun t => t.index)).flatten
  ⟨cols, rows, index⟩

/-- Cell-level `fillna("NaN")`: a missing cell becomes the literal text
string `NaN`; every other cell is unchanged. -/
def fillna_cell : Cell → Cell
  | Cell.na => Cell.str (strL "NaN")
  | Cell.str s => Cell.str s
  | Cell.dt d => Cell.dt d

/-- Embedding of `my_big_dataset.fillna("NaN", inplace=True)`: the
substitution is applied to every cell of every column. -/
def fillna (t : Table) : Table :=
  ⟨t.cols, t.rows.map (fun r => r.map fillna_cell), t.index⟩

/-- The strings pandas treats as `NaT` when parsing datetimes
(`nat_strings` in the pandas sources); the empty string is handled by a
separate length check there and by `isEmpty` below. -/
def natStrings : List (List Char) :=
  [strL "NaT", strL "nat", strL "NAT", strL "nan", strL "NaN", strL "NAN"]

/-- Cell-level `pd.to_datetime(..., format=...)`: missing stays missing
(`NaT`); the empty string and the pandas NaT strings (`NaT`, `nan`,
`NaN`, ...) become `NaT` without raising; other text must parse under the
fixed format (a mismatch raises); an already-parsed timestamp passes
through. -/
def to_datetime_cell : Cell → Except String Cell
  | Cell.na => Except.ok Cell.na
  | Cell.str s =>
    if s.isEmpty || natStrings.contains s then Except.ok Cell.na
    else
      match parseDateFmt s with
      | some d => Except.ok (Cell.dt d)
      | none => Except.error ("time data " ++ String.mk s ++ " does not match format")
  | Cell.dt d => Except.ok (Cell.dt d)

/-- Error-propagating map over a list, stopping at the first failure (the
order in which Python raises). -/
def mapExcept (f : α → Except String β) : List α → Except String (List β)
  | [] => Except.ok []
  | x :: xs =>
    match f x with
    | Except.error e => Except.error e
    | Except.ok y =>
      match mapExcept f xs with
      | Except.error e => Except.error e
      | Except.ok ys => Except.ok (y :: ys)

/-- Application of `to_datetime_cell` to position `j` of one row. -/
def to_datetime_row (j : Nat) (r : List Cell) : Except String (List Cell) :=
  match to_datetime_cell (r.getD j Cell.na) with
  | Except.error e => Except.error e
  | Except.ok c => Except.ok (r.set j c)

/-- Embedding of `df[col] = pd.to_datetime(df[col], format=...)`: parse the
named column of every row; a missing column or an unparseable cell
raises. -/
def to_datetime_col (col : List Char) (t : Table) : Except String Table :=
  match colIdx col t.cols with
  | none => Except.error ("KeyError: " ++ String.mk col)
  | some j =>
    match mapExcept (to_datetime_row j) t.rows with
    | Except.error e => Except.error e
    | Except.ok rows => Except.ok ⟨t.cols, rows, t.index⟩

/-- Worker of `drop_duplicates`: walk the (label, row) pairs keeping a row
only when its cell contents have not been seen before; kept rows retain
their original index labels, in their original order. -/
def dropDupSeen (seen : List (List Cell)) :
    List (Nat × List Cell) → List (Nat × List Cell)
  | [] => []
  | p :: rest =>
    if seen.contains p.2 then dropDupSeen seen rest
    else p :: dropDupSeen (p.2 :: seen) rest

/-- Embedding of `df.drop_duplicates(inplace=True)`: collapse rows that are
identical across every column to their first occurrence, preserving the
order and index labels of the kept rows. -/
def drop_duplicates (t : Table) : Table :=
  let kept := dropDupSeen [] (t.index.zip t.rows)
  ⟨t.cols, kept.map Prod.snd, kept.map Prod.fst⟩

/-- The normalization cell of the notebook, in source order: fill missing
values with the text `NaN`, parse the `date` column under the fixed
format, drop exact-duplicate rows. -/
def normalizeTable (t : Table) : Except String Table :=
  match to_datetime_col (strL "date") (fillna t) with
  | Except.error e => Except.error e
  | Except.ok t2 => Except.ok (drop_duplicates t2)

/-- Embedding of `all_data = [read_clean_csv(file) for file in file_list]`:
load every discovered file in order, stopping at the first failure. -/
def load_all : List (String × List Line) → Except String (List Table)
  | [] => Except.ok []
  | (p, ls) :: rest =>
    match read_clean_csv p ls with
    | Except.error e => Except.error e
    | Except.ok t =>
      match load_all rest with
      | Except.error e => Except.error e
      | Except.ok ts => Except.ok (t :: ts)

/-- Corpus assembly: load all files, then
`pd.concat(all_data, ignore_index=True)`. -/
def assemble (files : List (String × List Line)) : Except String Table :=
  match load_all files with
  | Except.error e => Except.error e
  | Except.ok ts => Except.ok (pdConcat ts true)

/-- Scanning from any counter value finds nothing when no line matches. -/
theorem detect_from_none (lines : List Line)
    (h : ∀ l ∈ lines, hasBothTokens l = false) :
    ∀ start, detect_header_row_from start lines = none := by
  induction lines with
  | nil => intro _; rfl
  | cons line rest ih =>
    intro start
    have h0 : hasBothTokens line = false := h line (List.mem_cons_self _ _)
    simp only [detect_header_row_from, h0, Bool.false_eq_true, if_false]
    exact ih (fun l hl => h l (List.mem_cons_of_mem _ hl)) (start + 1)

/-- Scanning from counter `start` returns `start + k` when the first
matching line sits `k` lines further on. -/
theorem detect_from_first :
    ∀ (lines : List Line) (start k : Nat), k < lines.length →
      hasBothTokens (lines.getD k []) = true →
      (∀ j, j < k → hasBothTokens (lines.getD j []) = false) →
      detect_header_row_from start lines = some (start + k) := by
  intro lines
  induction lines with
  | nil => intro start k hk _ _; simp at hk
  | cons line rest ih =>
    intro start k hk hm hb
    cases k with
    | zero =>
      simp only [List.getD_cons_zero] at hm
      simp [detect_header_row_from, hm]
    | succ k' =>
      have h0 : hasBothTokens line = false := by
        have := hb 0 (Nat.succ_pos _)
        simpa using this
      have hrest := ih (start + 1) k' (by simpa using hk)
        (by simpa using hm)
        (fun j hj => by simpa using hb (j + 1) (Nat.succ_lt_succ hj))
      simp only [detect_header_row_from, h0, Bool.false_eq_true, if_false]
      rw [hrest]
      congr 1
      omega

/-- C1: for every file whose first line containing, case-insensitively, both
the token `date` and the token `wdsp` sits at zero-based index `k`, the
header locator returns exactly `some k`.  The hypothesis on the earlier
lines only rules out both tokens appearing together on one of them, so a
line holding a single token — or the two tokens spread over separate
earlier lines — does not stop the scan. -/
theorem detect_header_row_first_both (lines : List Line) (k : Nat)
    (hk : k < lines.length)
    (hmatch : containsSub dateTok (lowerL (lines.getD k [])) = true ∧
              containsSub wdspTok (lowerL (lines.getD k [])) = true)
    (hbefore : ∀ j, j < k →
        ¬(containsSub dateTok (lowerL (lines.getD j [])) = true ∧
          containsSub wdspTok (lowerL (lines.getD j [])) = true)) :
    detect_header_row lines = some k := by
  have hm : hasBothTokens (lines.getD k []) = true := by
    simp only [hasBothTokens, Bool.and_eq_true]
    exact hmatch
  have hb : ∀ j, j < k → hasBothTokens (lines.getD j []) = false := by
    intro j hj
    have h' := hbefore j hj
    cases hd : containsSub dateTok (lowerL (lines.getD j [])) <;>
      cases hw : containsSub wdspTok (lowerL (lines.getD j [])) <;>
      simp_all [hasBothTokens]
  have := detect_from_first lines 0 k hk hm hb
  simpa [detect_header_row] using this

/-- Witness for C1 at a concrete file: the metadata line and a line holding
only the token `date` are skipped, and the header index 2 is returned. -/
theorem detect_header_row_first_both_witness :
    detect_header_row
      [strL "Station Name: MACE HEAD", strL "only date here", strL "date,ind,wdsp"]
      = some 2 :=
  detect_header_row_first_both _ 2 (by decide) (by decide) (by decide)

/-- C5: for every file in which no single line holds both header tokens
(the empty file included), the header locator signals absence as `none`,
and the file loader turns that into an error naming the file rather than
consuming it silently. -/
theorem no_header_signals_error (path : String) (lines : List Line)
    (h : ∀ l ∈ lines, hasBothTokens l = false) :
    detect_header_row lines = none ∧
      read_clean_csv path lines =
        Except.error ("No valid header found in " ++ path) := by
  have hd : detect_header_row lines = none := detect_from_none lines h 0
  refine ⟨hd, ?_⟩
  simp [read_clean_csv, hd]

/-- Witness for C5 at a concrete file whose two tokens sit on separate
lines: scanning continues past both and the loader reports the file. -/
theorem no_header_signals_error_witness :
    detect_header_row [strL "a date line", strL "a wdsp line"] = none ∧
      read_clean_csv "data/bad.csv" [strL "a date line", strL "a wdsp line"] =
        Except.error ("No valid header found in " ++ "data/bad.csv") :=
  no_header_signals_error "data/bad.csv" _ (by decide)

/-- With enough fuel and a nonempty separator, the head chunk of the
splitting worker is the text up to the next separator occurrence. -/
theorem pySplitGo_head_takeUntil (sep : List Char) (hne : sep ≠ []) :
    ∀ (m : List Char) (fuel : Nat), m.length ≤ fuel →
      (pySplitGo sep fuel m).getD 0 [] = takeUntilSep sep m := by
  have hie : sep.isEmpty = false := by
    cases sep with
    | nil => exact absurd rfl hne
    | cons a as => rfl
  intro m
  induction m with
  | nil =>
    intro fuel _
    cases fuel <;> rfl
  | cons c ms ih =>
    intro fuel hfuel
    cases fuel with
    | zero => simp at hfuel
    | succ f =>
      rw [pySplitGo, takeUntilSep]
      by_cases hpre : sep.isPrefixOf (c :: ms) = true
      · rw [if_pos hpre,
          if_pos (show (!sep.isEmpty && sep.isPrefixOf (c :: ms)) = true by
            rw [hie, hpre]; rfl)]
        rfl
      · have hpre' : sep.isPrefixOf (c :: ms) = false := Bool.eq_false_iff.mpr hpre
        rw [if_neg hpre,
          if_neg (show ¬(!sep.isEmpty && sep.isPrefixOf (c :: ms)) = true by
            rw [hpre']; simp)]
        have ihm := ih f (by simpa using hfuel)
        cases hres : pySplitGo sep f ms with
        | nil =>
          rw [hres] at ihm
          rw [← ihm]
          rfl
        | cons chunk chunks =>
          rw [hres] at ihm
          rw [← ihm]
          rfl

/-- Chunk 1 of the Python split of a line starting with a nonempty
separator is the text after that leading separator up to its next
occurrence, or the end of the line when it does not reoccur. -/
theorem pySplit_after_label (sep m : List Char) (hne : sep ≠ []) :
    (pySplit sep (sep ++ m)).getD 1 [] = takeUntilSep sep m := by
  cases sep with
  | nil => exact absurd rfl hne
  | cons s ss =>
    have hpre : (s :: ss).isPrefixOf ((s :: ss) ++ m) = true :=
      List.isPrefixOf_iff_prefix.mpr (List.prefix_append _ _)
    have hdrop : ((s :: ss) ++ m).drop (s :: ss).length = m := List.drop_left _ _
    have hlen : (s :: ss) ++ m = s :: (ss ++ m) := rfl
    have hlen2 : ((s :: ss) ++ m).length = (ss ++ m).length + 1 := by simp
    have hfuel : m.length ≤ (ss ++ m).length := by simp
    calc (pySplit (s :: ss) ((s :: ss) ++ m)).getD 1 []
        = (pySplitGo (s :: ss) ((ss ++ m).length + 1) (s :: (ss ++ m))).getD 1 [] := by
          rw [pySplit, hlen2, hlen]
      _ = ([] :: pySplitGo (s :: ss) ((ss ++ m).length)
            ((s :: (ss ++ m)).drop (s :: ss).length)).getD 1 [] := by
          rw [pySplitGo]
          simp only [List.isEmpty_cons, Bool.not_false, Bool.true_and]
          rw [← hlen, hpre]
          simp
      _ = (pySplitGo (s :: ss) ((ss ++ m).length) m).getD 0 [] := by
          rw [← hlen, hdrop]
          rfl
      _ = takeUntilSep (s :: ss) m :=
          pySplitGo_head_takeUntil (s :: ss) (by simp) m _ hfuel

/-- When the separator does not occur in the list, the cut reaches its
end. -/
theorem takeUntilSep_of_no_occurrence (sep : List Char) :
    ∀ m : List Char, containsSub sep m = false → takeUntilSep sep m = m := by
  intro m
  induction m with
  | nil => intro _; rfl
  | cons c ms ih =>
    intro hno
    have hsplit : sep.isPrefixOf (c :: ms) = false ∧
        containsSub sep ms = false := by
      simp only [containsSub, Bool.or_eq_false_iff] at hno
      exact hno
    rw [takeUntilSep, if_neg (by rw [hsplit.1]; exact Bool.false_ne_true)]
    rw [ih hsplit.2]

/-- C8, amended: on every file, the extractor acts at the first line that
starts with `Station Name:` and returns the text between the end of that
label and the next occurrence of the label on the line (or the end of the
line), whitespace-stripped and upper-cased; when the label does not
reoccur in the line that text is exactly the remainder after the label;
and a file with no label line yields `none`, not an error. -/
theorem extract_station_name_spec :
    (∀ (pre : List Line) (line : Line) (rest : List Line),
        (∀ l ∈ pre, stationLabel.isPrefixOf l = false) →
        stationLabel.isPrefixOf line = true →
        extract_station_name (pre ++ line :: rest) =
          some (pyUpper (pyStrip
            (takeUntilSep stationLabel (line.drop stationLabel.length))))) ∧
    (∀ line : Line,
        containsSub stationLabel (line.drop stationLabel.length) = false →
        takeUntilSep stationLabel (line.drop stationLabel.length) =
          line.drop stationLabel.length) ∧
    (∀ lines : List Line, (∀ l ∈ lines, stationLabel.isPrefixOf l = false) →
        extract_station_name lines = none) := by
  refine ⟨?_, ?_, ?_⟩
  · intro pre line rest hpre hline
    induction pre with
    | nil =>
      obtain ⟨m, hm⟩ := List.isPrefixOf_iff_prefix.mp hline
      subst hm
      have hdrop : (stationLabel ++ m).drop stationLabel.length = m :=
        List.drop_left _ _
      rw [hdrop]
      have hsplit : (pySplit stationLabel (stationLabel ++ m)).getD 1 [] =
          takeUntilSep stationLabel m :=
        pySplit_after_label stationLabel m (by decide)
      simp only [List.nil_append, extract_station_name, hline, if_true, hsplit]
    | cons p pre' ih =>
      have hp : stationLabel.isPrefixOf p = false := hpre p (List.mem_cons_self _ _)
      simp only [List.cons_append, extract_station_name, hp, Bool.false_eq_true,
        if_false]
      exact ih (fun l hl => hpre l (List.mem_cons_of_mem _ hl))
  · intro line hno
    exact takeUntilSep_of_no_occurrence stationLabel _ hno
  · intro lines hnone
    induction lines with
    | nil => rfl
    | cons p rest ih =>
      have hp : stationLabel.isPrefixOf p = false := hnone p (List.mem_cons_self _ _)
      simp only [extract_station_name, hp, Bool.false_eq_true, if_false]
      exact ih (fun l hl => hnone l (List.mem_cons_of_mem _ hl))

/-- Witness for C8 (amended) at three concrete files: the metadata line of
the spec, a line in which the label reoccurs (the cut stops at the second
occurrence), and a file with no label line. -/
theorem extract_station_name_spec_witness :
    extract_station_name [strL "Station Name: mace head", strL "date,wdsp"] =
      some (strL "MACE HEAD") ∧
    extract_station_name [strL "Station Name: mace head Station Name: two"] =
      some (strL "MACE HEAD") ∧
    extract_station_name [strL "date,wdsp"] = none := by
  refine ⟨?_, ?_, ?_⟩
  · have h := extract_station_name_spec.1 [] (strL "Station Name: mace head")
      [strL "date,wdsp"] (by intro l hl; simp at hl) (by decide)
    rw [List.nil_append] at h
    rw [h]
    decide
  · have h := extract_station_name_spec.1 []
      (strL "Station Name: mace head Station Name: two") []
      (by intro l hl; simp at hl) (by decide)
    rw [List.nil_append] at h
    rw [h]
    decide
  · exact extract_station_name_spec.2.2 [strL "date,wdsp"] (by decide)

/-- C8, counterexample: on a line in which the label `Station Name:`
occurs a second time, the code returns the chunk between the two label
occurrences, not the whole whitespace-stripped upper-cased remainder after
the (first) label that the claim describes. -/
theorem extract_station_name_counterexample :
    extract_station_name [strL "Station Name: mace head Station Name: two"] =
      some (strL "MACE HEAD") ∧
    pyUpper (pyStrip
        ((strL "Station Name: mace head Station Name: two").drop
          stationLabel.length)) =
      strL "MACE HEAD STATION NAME: TWO" ∧
    some (strL "MACE HEAD") ≠
      some (strL "MACE HEAD STATION NAME: TWO") := by
  refine ⟨by decide, by decide, by decide⟩

/-- C4, counterexample: parsing the spec string under the fixed format
succeeds with the stated field values, but re-formatting that value with
the same pattern does not reproduce the original string character for
character (strftime renders the month abbreviation capitalized). -/
theorem roundtrip_counterexample :
    parseDateFmt (strL "13-aug-2003 01:00") = some ⟨2003, 8, 13, 1, 0⟩ ∧
    formatDateFmt ⟨2003, 8, 13, 1, 0⟩ ≠ strL "13-aug-2003 01:00" := by
  refine ⟨by decide, by decide⟩

/-- C4, amended: parsing `13-aug-2003 01:00` under `%d-%b-%Y %H:%M` yields
year 2003, month 8, day 13, hour 1, minute 0, and re-formatting with the
same pattern yields `13-Aug-2003 01:00`, which reproduces the original
string up to the letter case of the month abbreviation. -/
theorem parse_format_roundtrip_up_to_case :
    parseDateFmt (strL "13-aug-2003 01:00") = some ⟨2003, 8, 13, 1, 0⟩ ∧
    formatDateFmt ⟨2003, 8, 13, 1, 0⟩ = strL "13-Aug-2003 01:00" ∧
    lowerL (formatDateFmt ⟨2003, 8, 13, 1, 0⟩) =
      lowerL (strL "13-aug-2003 01:00") := by
  refine ⟨by decide, by decide, by decide⟩

/-- C6, counterexample: a file with a detectable header but no
`Station Name:` line loads successfully with a missing (null) `station`
cell on its row, so the station field of a returned table is not always
non-null. -/
theorem station_null_counterexample :
    read_clean_csv "f.csv" [strL "metadata", strL "date,wdsp", strL "1,2"] =
      Except.ok ⟨[strL "date", strL "wdsp", strL "station"],
                 [[Cell.str (strL "1"), Cell.str (strL "2"), Cell.na]], [0]⟩ ∧
    stationCell
        (extract_station_name [strL "metadata", strL "date,wdsp", strL "1,2"]) =
      Cell.na := by
  refine ⟨rfl, rfl⟩

/-- C6, amended: every row of a table returned by the file loader carries a
final `station` cell holding the extracted station name — an upper-cased
text value when the file has a `Station Name:` line, and the missing
marker when it has none. -/
theorem read_clean_csv_station_column (path : String) (lines : List Line)
    (t : Table) (h : read_clean_csv path lines = Except.ok t) :
    (∀ r ∈ t.rows,
        r.getLast? = some (stationCell (extract_station_name lines))) ∧
    (∀ s, extract_station_name lines = some s → ∃ raw, s = pyUpper raw) := by
  constructor
  · intro r hr
    cases hdet : detect_header_row lines with
    | none =>
      rw [read_clean_csv, hdet] at h
      exact Except.noConfusion h
    | some k =>
      simp only [read_clean_csv, hdet, Except.ok.injEq] at h
      subst h
      obtain ⟨r0, _, rfl⟩ := List.mem_map.mp hr
      exact List.getLast?_concat _
  · clear h
    intro s hs
    induction lines with
    | nil => exact absurd hs (by simp [extract_station_name])
    | cons line rest ih =>
      simp only [extract_station_name] at hs
      by_cases hp : stationLabel.isPrefixOf line = true
      · rw [if_pos hp] at hs
        exact ⟨pyStrip ((pySplit stationLabel line).getD 1 []),
          (Option.some_inj.mp hs).symm⟩
      · rw [if_neg hp] at hs
        exact ih hs

/-- Witness for C6 (amended) at a concrete file carrying a station line:
the loaded row ends with the upper-cased station cell. -/
theorem read_clean_csv_station_column_witness :
    read_clean_csv "f.csv"
        [strL "Station Name: mace head", strL "date,wdsp", strL "1,"] =
      Except.ok ⟨[strL "date", strL "wdsp", strL "station"],
                 [[Cell.str (strL "1"), Cell.na, Cell.str (strL "MACE HEAD")]],
                 [0]⟩ ∧
    [Cell.str (strL "1"), Cell.na, Cell.str (strL "MACE HEAD")].getLast? =
      some (stationCell (extract_station_name
        [strL "Station Name: mace head", strL "date,wdsp", strL "1,"])) := by
  refine ⟨rfl, ?_⟩
  exact (read_clean_csv_station_column "f.csv"
    [strL "Station Name: mace head", strL "date,wdsp", strL "1,"]
    ⟨[strL "date", strL "wdsp", strL "station"],
     [[Cell.str (strL "1"), Cell.na, Cell.str (strL "MACE HEAD")]], [0]⟩
    rfl).1
    [Cell.str (strL "1"), Cell.na, Cell.str (strL "MACE HEAD")] (by decide)

/-- C2: concatenating, with index renumbering, two tables whose column
lists are `[a,b,c]` and `[a,b,d]` (names pairwise distinct) yields the
column union `[a,b,c,d]`; every row of the first table carries the missing
marker in column `d`, every row of the second carries it in column `c`,
and the result index is the dense zero-based range, unrelated to either
per-file index. -/
theorem pdConcat_column_union (a b c d : List Char)
    (hab : a ≠ b) (hac : a ≠ c) (had : a ≠ d)
    (hbc : b ≠ c) (hbd : b ≠ d) (hcd : c ≠ d)
    (r1 r2 : List (List Cell)) (i1 i2 : List Nat) :
    pdConcat [⟨[a, b, c], r1, i1⟩, ⟨[a, b, d], r2, i2⟩] true =
      ⟨[a, b, c, d],
       r1.map (fun r =>
         [r.getD 0 Cell.na, r.getD 1 Cell.na, r.getD 2 Cell.na, Cell.na]) ++
       r2.map (fun r =>
         [r.getD 0 Cell.na, r.getD 1 Cell.na, Cell.na, r.getD 2 Cell.na]),
       List.range (r1.length + r2.length)⟩ := by
  have hda : d ≠ a := Ne.symm had
  have hdb : d ≠ b := Ne.symm hbd
  have hdc : d ≠ c := Ne.symm hcd
  have hcols :
      unionCols [⟨[a, b, c], r1, i1⟩, ⟨[a, b, d], r2, i2⟩] = [a, b, c, d] := by
    simp [unionCols, List.contains, List.elem, hda, hdb, hdc]
  have hr1 : ∀ r ∈ r1, realign [a, b, c] [a, b, c, d] r =
      [r.getD 0 Cell.na, r.getD 1 Cell.na, r.getD 2 Cell.na, Cell.na] := by
    intro r _
    simp [realign, colIdx, hab, hac, had, hbc, hbd, hcd, hda, hdb, hdc]
  have hr2 : ∀ r ∈ r2, realign [a, b, d] [a, b, c, d] r =
      [r.getD 0 Cell.na, r.getD 1 Cell.na, Cell.na, r.getD 2 Cell.na] := by
    intro r _
    simp [realign, colIdx, hab, hac, had, hbc, hbd, hcd, hda, hdb, hdc]
  simp only [pdConcat, hcols, List.map_cons, List.map_nil, List.flatten_cons,
    List.flatten_nil, List.append_nil, if_true]
  rw [List.map_congr_left hr1, List.map_congr_left hr2]
  simp [Table.mk.injEq]

/-- Witness for C2 at concrete one-row tables with columns `A,B,C` and
`A,B,D` and unrelated index labels 5 and 9. -/
theorem pdConcat_column_union_witness :
    pdConcat
      [⟨[strL "A", strL "B", strL "C"],
        [[Cell.str (strL "1"), Cell.str (strL "2"), Cell.str (strL "3")]], [5]⟩,
       ⟨[strL "A", strL "B", strL "D"],
        [[Cell.str (strL "4"), Cell.str (strL "5"), Cell.str (strL "6")]], [9]⟩]
      true =
      ⟨[strL "A", strL "B", strL "C", strL "D"],
       [[Cell.str (strL "1"), Cell.str (strL "2"), Cell.str (strL "3"), Cell.na],
        [Cell.str (strL "4"), Cell.str (strL "5"), Cell.na, Cell.str (strL "6")]],
       [0, 1]⟩ := by
  have h := pdConcat_column_union (strL "A") (strL "B") (strL "C") (strL "D")
    (by decide) (by decide) (by decide) (by decide) (by decide) (by decide)
    [[Cell.str (strL "1"), Cell.str (strL "2"), Cell.str (strL "3")]]
    [[Cell.str (strL "4"), Cell.str (strL "5"), Cell.str (strL "6")]] [5] [9]
  rw [h]
  decide

/-- A file whose header cannot be located makes the loader fail with the
message naming that file. -/
theorem read_clean_csv_error_of_none (path : String) (lines : List Line)
    (h : detect_header_row lines = none) :
    read_clean_csv path lines =
      Except.error ("No valid header found in " ++ path) := by
  simp [read_clean_csv, h]

/-- A file whose header is located loads successfully. -/
theorem read_clean_csv_ok_of_some (path : String) (lines : List Line) (k : Nat)
    (h : detect_header_row lines = some k) :
    read_clean_csv path lines = Except.ok
      ⟨(pd_read_csv (lines.drop k)).cols ++ [strL "station"],
       (pd_read_csv (lines.drop k)).rows.map
         (fun r => r ++ [stationCell (extract_station_name lines)]),
       (pd_read_csv (lines.drop k)).index⟩ := by
  simp [read_clean_csv, h]

/-- C7: when the discovered file list contains a malformed file — one whose
header row cannot be located — after any run of well-formed files, the
whole assembly aborts with the error naming that file, whatever files
follow it: no partial corpus is returned. -/
theorem assemble_fail_fast (good : List (String × List Line)) (p : String)
    (ls : List Line) (rest : List (String × List Line))
    (hgood : ∀ q ∈ good, detect_header_row q.2 ≠ none)
    (hbad : detect_header_row ls = none) :
    assemble (good ++ (p, ls) :: rest) =
      Except.error ("No valid header found in " ++ p) := by
  have hload : load_all (good ++ (p, ls) :: rest) =
      Except.error ("No valid header found in " ++ p) := by
    induction good with
    | nil =>
      simp only [List.nil_append, load_all,
        read_clean_csv_error_of_none p ls hbad]
    | cons q good' ih =>
      obtain ⟨qp, ql⟩ := q
      obtain ⟨k, hk⟩ :=
        Option.ne_none_iff_exists'.mp (hgood (qp, ql) (List.mem_cons_self _ _))
      have hq := read_clean_csv_ok_of_some qp ql k hk
      have ih' := ih (fun x hx => hgood x (List.mem_cons_of_mem _ hx))
      simp only [List.cons_append, load_all, hq, List.append_eq, ih']
  simp only [assemble, hload]

/-- Witness for C7 at a concrete list: one well-formed file followed by a
headerless one; the assembly aborts naming the bad file. -/
theorem assemble_fail_fast_witness :
    assemble [("data/good.csv",
               [strL "Station Name: X", strL "date,wdsp", strL "1,2"]),
              ("data/bad.csv", [strL "no header at all"])] =
      Except.error ("No valid header found in " ++ "data/bad.csv") := by
  have h := assemble_fail_fast
    [("data/good.csv", [strL "Station Name: X", strL "date,wdsp", strL "1,2"])]
    "data/bad.csv" [strL "no header at all"] [] (by decide) (by decide)
  exact h

/-- Zipping the projections of a list of pairs gives back the list. -/
theorem zip_map_fst_snd_self {α β : Type} (l : List (α × β)) :
    (l.map Prod.fst).zip (l.map Prod.snd) = l := by
  induction l with
  | nil => rfl
  | cons p rest ih => simp [ih]

/-- Every kept pair comes from the scanned list. -/
theorem dropDupSeen_subset :
    ∀ (seen : List (List Cell)) (l : List (Nat × List Cell))
      (q : Nat × List Cell), q ∈ dropDupSeen seen l → q ∈ l := by
  intro seen l
  induction l generalizing seen with
  | nil => intro q hq; simp [dropDupSeen] at hq
  | cons x rest ih =>
    intro q hq
    by_cases hx : seen.contains x.2 = true
    · rw [dropDupSeen, if_pos hx] at hq
      exact List.mem_cons_of_mem _ (ih seen q hq)
    · rw [dropDupSeen, if_neg hx] at hq
      rcases List.mem_cons.mp hq with rfl | hq'
      · exact List.mem_cons_self _ _
      · exact List.mem_cons_of_mem _ (ih _ q hq')

/-- A kept pair's row was not among the already-seen row values. -/
theorem dropDupSeen_mem_not_seen :
    ∀ (seen : List (List Cell)) (l : List (Nat × List Cell))
      (q : Nat × List Cell), q ∈ dropDupSeen seen l →
        seen.contains q.2 = false := by
  intro seen l
  induction l generalizing seen with
  | nil => intro q hq; simp [dropDupSeen] at hq
  | cons x rest ih =>
    intro q hq
    by_cases hx : seen.contains x.2 = true
    · rw [dropDupSeen, if_pos hx] at hq
      exact ih seen q hq
    · rw [dropDupSeen, if_neg hx] at hq
      rcases List.mem_cons.mp hq with rfl | hq'
      · exact Bool.eq_false_iff.mpr hx
      · have h2 := ih (x.2 :: seen) q hq'
        simp only [List.contains_cons, Bool.or_eq_false_iff] at h2
        exact h2.2

/-- The kept pairs carry pairwise distinct row values. -/
theorem dropDupSeen_pairwise :
    ∀ (seen : List (List Cell)) (l : List (Nat × List Cell)),
      (dropDupSeen seen l).Pairwise (fun p q => p.2 ≠ q.2) := by
  intro seen l
  induction l generalizing seen with
  | nil => exact List.Pairwise.nil
  | cons x rest ih =>
    by_cases hx : seen.contains x.2 = true
    · rw [dropDupSeen, if_pos hx]
      exact ih seen
    · rw [dropDupSeen, if_neg hx]
      refine List.Pairwise.cons ?_ (ih (x.2 :: seen))
      intro q hq
      have h2 := dropDupSeen_mem_not_seen (x.2 :: seen) _ q hq
      simp only [List.contains_cons, Bool.or_eq_false_iff, beq_eq_false_iff_ne] at h2
      exact (h2.1).symm

/-- The kept pairs form an order-preserving subsequence of the input. -/
theorem dropDupSeen_sublist :
    ∀ (seen : List (List Cell)) (l : List (Nat × List Cell)),
      (dropDupSeen seen l).Sublist l := by
  intro seen l
  induction l generalizing seen with
  | nil => exact List.Sublist.refl _
  | cons x rest ih =>
    by_cases hx : seen.contains x.2 = true
    · rw [dropDupSeen, if_pos hx]
      exact List.Sublist.cons _ (ih seen)
    · rw [dropDupSeen, if_neg hx]
      exact List.Sublist.cons₂ _ (ih (x.2 :: seen))

/-- On pairs with pairwise distinct, never-seen row values the scan keeps
everything. -/
theorem dropDupSeen_eq_self :
    ∀ (seen : List (List Cell)) (l : List (Nat × List Cell)),
      l.Pairwise (fun p q => p.2 ≠ q.2) →
      (∀ q ∈ l, seen.contains q.2 = false) →
      dropDupSeen seen l = l := by
  intro seen l
  induction l generalizing seen with
  | nil => intro _ _; rfl
  | cons x rest ih =>
    intro hpw hns
    have hx : seen.contains x.2 = false := hns x (List.mem_cons_self _ _)
    rw [dropDupSeen, if_neg (by rw [hx]; exact Bool.false_ne_true)]
    have hrest : ∀ q ∈ rest, (x.2 :: seen).contains q.2 = false := by
      intro q hq
      simp only [List.contains_cons, Bool.or_eq_false_iff, beq_eq_false_iff_ne]
      exact ⟨(List.rel_of_pairwise_cons hpw hq).symm, hns q (List.mem_cons_of_mem _ hq)⟩
    rw [ih (x.2 :: seen) (List.Pairwise.of_cons hpw) hrest]

/-- C9: eliminating duplicate rows twice yields exactly the table obtained
by eliminating them once. -/
theorem drop_duplicates_idempotent (t : Table) :
    drop_duplicates (drop_duplicates t) = drop_duplicates t := by
  simp only [drop_duplicates]
  rw [zip_map_fst_snd_self]
  rw [dropDupSeen_eq_self [] _ (dropDupSeen_pairwise [] _) (fun q _ => rfl)]

/-- Every row value not yet seen is represented among the kept pairs by the
first pair carrying it. -/
theorem dropDupSeen_first :
    ∀ (seen : List (List Cell)) (l : List (Nat × List Cell))
      (q : Nat × List Cell), q ∈ l → seen.contains q.2 = false →
      ∃ p ∈ dropDupSeen seen l, p.2 = q.2 ∧
        l.find? (fun x => x.2 == q.2) = some p := by
  intro seen l
  induction l generalizing seen with
  | nil => intro q hq _; simp at hq
  | cons x rest ih =>
    intro q hq hns
    by_cases hxq : (x.2 == q.2) = true
    · have heq : x.2 = q.2 := eq_of_beq hxq
      have hxs : seen.contains x.2 = false := by rw [heq]; exact hns
      rw [dropDupSeen, if_neg (by rw [hxs]; exact Bool.false_ne_true)]
      exact ⟨x, List.mem_cons_self _ _, heq, List.find?_cons_of_pos _ hxq⟩
    · have hqrest : q ∈ rest := by
        rcases List.mem_cons.mp hq with rfl | hmem
        · exact absurd (beq_self_eq_true q.2) hxq
        · exact hmem
      rw [@List.find?_cons_of_neg _ (fun y => y.2 == q.2) x rest hxq]
      by_cases hx : seen.contains x.2 = true
      · rw [dropDupSeen, if_pos hx]
        exact ih seen q hqrest hns
      · rw [dropDupSeen, if_neg hx]
        have hne : q.2 ≠ x.2 :=
          fun he => hxq (by rw [he]; exact beq_self_eq_true x.2)
        have hns' : (x.2 :: seen).contains q.2 = false := by
          simp only [List.contains_cons, Bool.or_eq_false_iff]
          exact ⟨beq_eq_false_iff_ne.mpr hne, hns⟩
        obtain ⟨p, hp, hpq, hfind⟩ := ih (x.2 :: seen) q hqrest hns'
        exact ⟨p, List.mem_cons_of_mem _ hp, hpq, hfind⟩

/-- A successful error-propagating map relates input and output pointwise. -/
theorem mapExcept_ok_forall₂ {α β : Type} (f : α → Except String β) :
    ∀ (l : List α) (l' : List β), mapExcept f l = Except.ok l' →
      List.Forall₂ (fun x y => f x = Except.ok y) l l' := by
  intro l
  induction l with
  | nil =>
    intro l' h
    injection h with h
    subst h
    exact List.Forall₂.nil
  | cons x xs ih =>
    intro l' h
    simp only [mapExcept] at h
    cases hfx : f x with
    | error e => rw [hfx] at h; exact Except.noConfusion h
    | ok y =>
      rw [hfx] at h
      cases hrest : mapExcept f xs with
      | error e => rw [hrest] at h; exact Except.noConfusion h
      | ok ys =>
        rw [hrest] at h
        injection h with h
        subst h
        exact List.Forall₂.cons hfx (ih ys hrest)

/-- Right-to-left membership along a pointwise relation. -/
theorem forall₂_mem_right {α β : Type} {R : α → β → Prop} :
    ∀ {l₁ : List α} {l₂ : List β}, List.Forall₂ R l₁ l₂ →
      ∀ b ∈ l₂, ∃ a ∈ l₁, R a b := by
  intro l₁ l₂ h
  induction h with
  | nil => intro b hb; simp at hb
  | cons hR _ ih =>
    intro b hb
    rcases List.mem_cons.mp hb with rfl | hb'
    · exact ⟨_, List.mem_cons_self _ _, hR⟩
    · obtain ⟨a, ha, hr⟩ := ih b hb'
      exact ⟨a, List.mem_cons_of_mem _ ha, hr⟩

/-- Anatomy of a successful column parse: the column exists and the rows
are rewritten pointwise. -/
theorem to_datetime_col_ok (col : List Char) (t mid : Table)
    (h : to_datetime_col col t = Except.ok mid) :
    ∃ j, colIdx col t.cols = some j ∧
      mid.cols = t.cols ∧ mid.index = t.index ∧
      List.Forall₂ (fun r r' => to_datetime_row j r = Except.ok r')
        t.rows mid.rows := by
  cases hj : colIdx col t.cols with
  | none =>
    simp only [to_datetime_col, hj] at h
    exact Except.noConfusion h
  | some j =>
    simp only [to_datetime_col, hj] at h
    cases hm : mapExcept (to_datetime_row j) t.rows with
    | error e =>
      simp only [hm] at h
      exact Except.noConfusion h
    | ok rows =>
      simp only [hm] at h
      injection h with h
      subst h
      exact ⟨j, rfl, rfl, rfl, mapExcept_ok_forall₂ _ _ _ hm⟩

/-- A successfully parsed cell is never a raw text value. -/
theorem to_datetime_cell_not_str (c c' : Cell)
    (h : to_datetime_cell c = Except.ok c') : ∀ s, c' ≠ Cell.str s := by
  intro s
  cases c with
  | na =>
    injection h with h
    subst h
    simp
  | str s0 =>
    simp only [to_datetime_cell] at h
    by_cases hnat : (s0.isEmpty || natStrings.contains s0) = true
    · rw [if_pos hnat] at h
      injection h with h
      subst h
      simp
    · rw [if_neg hnat] at h
      cases hp : parseDateFmt s0 with
      | none => rw [hp] at h; exact Except.noConfusion h
      | some d =>
        rw [hp] at h
        injection h with h
        subst h
        simp
  | dt d =>
    injection h with h
    subst h
    simp

/-- Setting inside the list is read back by `getD` at the same position. -/
theorem getD_set_lt (l : List Cell) :
    ∀ (j : Nat) (c : Cell), j < l.length →
      (l.set j c).getD j Cell.na = c := by
  induction l with
  | nil => intro j c hj; simp at hj
  | cons x rest ih =>
    intro j c hj
    cases j with
    | zero => rfl
    | succ j' => exact ih j' c (by simpa using hj)

/-- Setting at or beyond the length leaves the list unchanged. -/
theorem set_of_le (l : List Cell) :
    ∀ (j : Nat) (c : Cell), l.length ≤ j → l.set j c = l := by
  induction l with
  | nil => intro j c _; rfl
  | cons x rest ih =>
    intro j c hj
    cases j with
    | zero => simp at hj
    | succ j' =>
      show x :: rest.set j' c = x :: rest
      rw [ih j' c (by simpa using hj)]

/-- After a successful row rewrite the date position holds no raw text. -/
theorem to_datetime_row_date_not_str (j : Nat) (r0 r' : List Cell)
    (h : to_datetime_row j r0 = Except.ok r') :
    ∀ s, r'.getD j Cell.na ≠ Cell.str s := by
  intro s
  cases hc : to_datetime_cell (r0.getD j Cell.na) with
  | error e =>
    simp only [to_datetime_row, hc] at h
    exact Except.noConfusion h
  | ok c' =>
    simp only [to_datetime_row, hc] at h
    injection h with h
    subst h
    by_cases hjl : j < r0.length
    · rw [getD_set_lt r0 j c' hjl]
      exact to_datetime_cell_not_str _ _ hc s
    · rw [set_of_le r0 j c' (Nat.le_of_not_lt hjl)]
      rw [List.getD_eq_default _ _ (Nat.le_of_not_lt hjl)]
      simp

/-- C3: on success the normalizer returns a table with the same columns in
which no row is identical to another; the surviving rows form an
order-preserving subsequence of the parsed table's rows in which every row
value still occurs; each surviving (label, row) pair is the first
occurrence of its row value in the parsed table; and on every surviving
row the date column holds a parsed temporal value or the missing marker,
never a raw unparsed string. -/
theorem normalize_nodup_temporal (t t' : Table)
    (hlen : t.index.length = t.rows.length)
    (h : normalizeTable t = Except.ok t') :
    ∃ mid, to_datetime_col (strL "date") (fillna t) = Except.ok mid ∧
      t'.cols = mid.cols ∧
      t'.rows.Nodup ∧
      t'.rows.Sublist mid.rows ∧
      (∀ r ∈ mid.rows, r ∈ t'.rows) ∧
      (∀ q ∈ mid.index.zip mid.rows,
          ∃ p ∈ t'.index.zip t'.rows, p.2 = q.2 ∧
            (mid.index.zip mid.rows).find? (fun x => x.2 == q.2) = some p) ∧
      (∃ j, colIdx (strL "date") t.cols = some j ∧
          ∀ r ∈ t'.rows, ∀ s, r.getD j Cell.na ≠ Cell.str s) := by
  cases hmid : to_datetime_col (strL "date") (fillna t) with
  | error e =>
    simp only [normalizeTable, hmid] at h
    exact Except.noConfusion h
  | ok mid =>
    simp only [normalizeTable, hmid] at h
    injection h with h
    subst h
    obtain ⟨j, hj, hcols, hidx, hrel⟩ := to_datetime_col_ok _ _ _ hmid
    have hrowlen : mid.rows.length = t.rows.length := by
      have hl := hrel.length_eq
      simpa [fillna] using hl.symm
    have hidxlen : mid.index.length = t.index.length := by
      rw [hidx]
      rfl
    have hmr : mid.rows.length ≤ mid.index.length := by
      rw [hidxlen, hrowlen, hlen]
    have hsubrows :
        (drop_duplicates mid).rows.Sublist mid.rows := by
      have hsub := List.Sublist.map Prod.snd
        (dropDupSeen_sublist [] (mid.index.zip mid.rows))
      rw [List.map_snd_zip _ _ hmr] at hsub
      exact hsub
    refine ⟨mid, rfl, ?_, ?_, hsubrows, ?_, ?_, ⟨j, hj, ?_⟩⟩
    · rfl
    · exact List.Pairwise.map Prod.snd (fun a b hab => hab)
        (dropDupSeen_pairwise [] _)
    · intro r hr
      obtain ⟨n, hn, rfl⟩ := List.mem_iff_getElem.mp hr
      have hnz : n < (mid.index.zip mid.rows).length := by
        rw [List.length_zip]
        exact lt_min (lt_of_lt_of_le hn hmr) hn
      have hqmem : (mid.index.zip mid.rows)[n] ∈ mid.index.zip mid.rows :=
        List.getElem_mem hnz
      have hq2 : (mid.index.zip mid.rows)[n].2 = mid.rows[n] := by
        rw [List.getElem_zip]
      obtain ⟨p, hp, hpq, _⟩ := dropDupSeen_first [] _ _ hqmem rfl
      refine List.mem_map.mpr ⟨p, hp, ?_⟩
      rw [hpq, hq2]
    · intro q hq
      obtain ⟨p, hp, hpq, hfind⟩ := dropDupSeen_first [] _ q hq rfl
      refine ⟨p, ?_, hpq, hfind⟩
      have hzz : (drop_duplicates mid).index.zip (drop_duplicates mid).rows =
          dropDupSeen [] (mid.index.zip mid.rows) := zip_map_fst_snd_self _
      rw [hzz]
      exact hp
    · intro r hr s
      have hrmid : r ∈ mid.rows := hsubrows.subset hr
      obtain ⟨r0, _, hrow⟩ := forall₂_mem_right hrel r hrmid
      exact to_datetime_row_date_not_str j r0 r hrow s

/-- Witness for C3 at a concrete two-row table whose rows are identical:
normalization parses the date and keeps a single row, and that row list
has no duplicates. -/
theorem normalize_nodup_temporal_witness :
    normalizeTable ⟨[strL "date"],
        [[Cell.str (strL "13-aug-2003 01:00")],
         [Cell.str (strL "13-aug-2003 01:00")]], [0, 1]⟩ =
      Except.ok ⟨[strL "date"], [[Cell.dt ⟨2003, 8, 13, 1, 0⟩]], [0]⟩ ∧
    ([[Cell.dt ⟨2003, 8, 13, 1, 0⟩]] : List (List Cell)).Nodup := by
  refine ⟨rfl, ?_⟩
  obtain ⟨mid, _, _, hnodup, _⟩ := normalize_nodup_temporal
    ⟨[strL "date"],
     [[Cell.str (strL "13-aug-2003 01:00")],
      [Cell.str (strL "13-aug-2003 01:00")]], [0, 1]⟩
    ⟨[strL "date"], [[Cell.dt ⟨2003, 8, 13, 1, 0⟩]], [0]⟩
    rfl rfl
  exact hnodup

/-- Setting one position leaves `getD` at any other position unchanged. -/
theorem getD_set_ne (l : List Cell) :
    ∀ (j i : Nat) (c : Cell), i ≠ j →
      (l.set j c).getD i Cell.na = l.getD i Cell.na := by
  induction l with
  | nil => intro j i c _; rfl
  | cons x rest ih =>
    intro j i c hij
    cases j with
    | zero =>
      cases i with
      | zero => exact absurd rfl hij
      | succ i' => rfl
    | succ j' =>
      cases i with
      | zero => rfl
      | succ i' => exact ih j' i' c (fun he => hij (by rw [he]))

/-- C10, counterexample: a missing date cell is filled with the text `NaN`
by the substitution step, but the fixed-format parse then maps that very
string back to the missing marker (pandas treats `NaN` as a NaT string),
so the normalized dataset holds a cell that registers as missing under a
null check. -/
theorem fillna_nat_counterexample :
    fillna ⟨[strL "date"], [[Cell.na]], [0]⟩ =
      ⟨[strL "date"], [[Cell.str (strL "NaN")]], [0]⟩ ∧
    normalizeTable ⟨[strL "date"], [[Cell.na]], [0]⟩ =
      Except.ok ⟨[strL "date"], [[Cell.na]], [0]⟩ := by
  refine ⟨rfl, rfl⟩

/-- C10, amended: the canonical placeholder substituted for a missing cell
is the literal text string `NaN`, applied to every column before
timestamp parsing and duplicate removal; consequently no cell outside the
date column of a successfully normalized dataset registers as missing
under a null check.  In the date column itself the fixed-format parse
maps the placeholder back to the missing marker, as the counterexample
shows. -/
theorem fillna_placeholder_non_date_not_null :
    fillna_cell Cell.na = Cell.str (strL "NaN") ∧
    ∀ t t', normalizeTable t = Except.ok t' →
      ∃ j, colIdx (strL "date") t.cols = some j ∧
        ∀ r ∈ t'.rows, ∀ i, i < r.length → i ≠ j →
          r.getD i Cell.na ≠ Cell.na := by
  refine ⟨rfl, ?_⟩
  intro t t' h
  cases hmid : to_datetime_col (strL "date") (fillna t) with
  | error e =>
    simp only [normalizeTable, hmid] at h
    exact Except.noConfusion h
  | ok mid =>
    simp only [normalizeTable, hmid] at h
    injection h with h
    subst h
    obtain ⟨j, hj, hcols, hidx, hrel⟩ := to_datetime_col_ok _ _ _ hmid
    refine ⟨j, hj, ?_⟩
    intro r hr i hi hij
    simp only [drop_duplicates] at hr
    obtain ⟨p, hp, hpr⟩ := List.mem_map.mp hr
    obtain ⟨pi, pr2⟩ := p
    have hzip := dropDupSeen_subset [] _ _ hp
    have hrmid : r ∈ mid.rows := by
      have h2 := (List.of_mem_zip hzip).2
      rw [← hpr]
      exact h2
    obtain ⟨r0, hr0, hrow⟩ := forall₂_mem_right hrel r hrmid
    have hr0na : ∀ x ∈ r0, x ≠ Cell.na := by
      simp only [fillna] at hr0
      obtain ⟨r00, _, hmapr⟩ := List.mem_map.mp hr0
      intro x hx
      rw [← hmapr] at hx
      obtain ⟨x0, _, hx0⟩ := List.mem_map.mp hx
      rw [← hx0]
      cases x0 <;> simp [fillna_cell]
    cases hcell : to_datetime_cell (r0.getD j Cell.na) with
    | error e =>
      simp only [to_datetime_row, hcell] at hrow
      exact Except.noConfusion hrow
    | ok c' =>
      simp only [to_datetime_row, hcell] at hrow
      injection hrow with hrow
      have hlen : i < r0.length := by
        rw [← hrow, List.length_set] at hi
        exact hi
      rw [← hrow, getD_set_ne r0 j i c' hij]
      rw [List.getD_eq_getElem _ _ hlen]
      exact hr0na _ (List.getElem_mem hlen)

/-- Witness for C10 (amended) at a concrete table with one missing
extended cell: normalization fills it with the text `NaN`, and the
theorem yields that this non-date cell is not the missing marker. -/
theorem fillna_placeholder_non_date_not_null_witness :
    normalizeTable ⟨[strL "date", strL "ww"],
        [[Cell.str (strL "13-aug-2003 01:00"), Cell.na]], [0]⟩ =
      Except.ok ⟨[strL "date", strL "ww"],
        [[Cell.dt ⟨2003, 8, 13, 1, 0⟩, Cell.str (strL "NaN")]], [0]⟩ ∧
    Cell.str (strL "NaN") ≠ Cell.na := by
  refine ⟨rfl, ?_⟩
  obtain ⟨j, hj, hcell⟩ := fillna_placeholder_non_date_not_null.2
    ⟨[strL "date", strL "ww"],
     [[Cell.str (strL "13-aug-2003 01:00"), Cell.na]], [0]⟩
    ⟨[strL "date", strL "ww"],
     [[Cell.dt ⟨2003, 8, 13, 1, 0⟩, Cell.str (strL "NaN")]], [0]⟩
    rfl
  have hj0 : j = 0 := by
    have hcol : colIdx (strL "date") [strL "date", strL "ww"] = some 0 := by decide
    rw [hcol] at hj
    exact (Option.some_inj.mp hj).symm
  subst hj0
  exact hcell [Cell.dt ⟨2003, 8, 13, 1, 0⟩, Cell.str (strL "NaN")]
    (List.mem_cons_self _ _) 1 (by decide) (by decide)
